import Mathlib

/-!
Verification of the resume-to-portfolio backend service (`main.py`,
`deployer.py`) against its natural-language specification.

Python strings are embedded as `List Char`; Python functions on strings
become structurally recursive Lean functions so that every definition
evaluates inside the kernel.  Fallible Python code (raising exceptions)
is embedded with `Option` / `Except`.  External collaborators (the LLM
client, the `json` standard library, the filesystem, the deploy CLI) are
modelled explicitly: the LLM as an outcome parameter, `json.loads` /
`json.dumps` as executable Lean functions over a `Json` value type, and
the filesystem as a map from paths to contents.
-/

/-! ## Python string primitives -/

/-- Whitespace as Python's `str.split` / `str.strip` see it (the six ASCII
whitespace characters). -/
def isWS (c : Char) : Bool :=
  c = ' ' || c = '\t' || c = '\n' || c = '\r' || c = '\x0b' || c = '\x0c'

/-- Python `str.strip()`: remove leading and trailing whitespace. -/
def pyStrip (l : List Char) : List Char :=
  ((l.dropWhile isWS).reverse.dropWhile isWS).reverse

/-- Worker for `splitWS`, carrying the (reversed) current word. -/
def splitWSAux : List Char → List Char → List (List Char)
  | [], acc => if acc.isEmpty then [] else [acc.reverse]
  | c :: cs, acc =>
    if isWS c then
      if acc.isEmpty then splitWSAux cs [] else acc.reverse :: splitWSAux cs []
    else splitWSAux cs (c :: acc)

/-- Python `str.split()` with no argument: split on runs of whitespace,
dropping empty pieces. -/
def splitWS (l : List Char) : List (List Char) := splitWSAux l []

/-- Python `sep.join(pieces)`. -/
def joinWith (sep : List Char) : List (List Char) → List Char
  | [] => []
  | [x] => x
  | x :: y :: rest => x ++ sep ++ joinWith sep (y :: rest)

/-- The whitespace-normalized form of a text: its words joined by single
spaces. -/
def normalizeWS (l : List Char) : List Char := joinWith [' '] (splitWS l)

/-! ## Chunker (`main.py` lines 67-77, `chunk_text`) -/

/-- The body of `chunk_text`'s `for word in words` loop: `chunks` and
`current` are the accumulators, and after the loop a non-empty `current`
is appended. -/
def chunkLoop (maxCS : Nat) : List (List Char) → List (List Char) → List Char → List (List Char)
  | [], chunks, current => if current.isEmpty then chunks else chunks ++ [current]
  | w :: ws, chunks, current =>
    if current.length + w.length + 1 > maxCS then
      chunkLoop maxCS ws (chunks ++ [current]) w
    else
      chunkLoop maxCS ws chunks (if current.isEmpty then w else current ++ ' ' :: w)

/-- `chunk_text(text, max_chunk_size=2000)` from `main.py`. -/
def chunk_text (text : List Char) (maxCS : Nat := 2000) : List (List Char) :=
  chunkLoop maxCS (splitWS text) [] []

/-- The sequence of words covered by a list of chunks, in order. -/
def joinSplit (l : List (List Char)) : List (List Char) := (l.map splitWS).flatten

/-! ## JSON value model

`main.py` delegates parsing to the standard `json` library.  The library
is an external collaborator; it is modelled here by an executable
recursive-descent parser (`json_loads`) and, for serialization of the
flat string-valued objects the sanitizer emits, a printer
(`json_dumps_strobj`).  Parsed objects follow Python `dict` semantics:
sequential insertion, a repeated key overwriting the earlier value in
place. -/

inductive Json where
  | null : Json
  | bool : Bool → Json
  | num : Int → Json
  | str : List Char → Json
  | arr : List Json → Json
  | obj : List (List Char × Json) → Json

/-- `dict` key membership (`k in d`). -/
def objHasKey (kvs : List (List Char × Json)) (k : List Char) : Bool :=
  (kvs.find? (fun kv => kv.1 == k)).isSome

/-- `dict` lookup (`d[k]`), `none` when the key is absent. -/
def objLookup (kvs : List (List Char × Json)) (k : List Char) : Option Json :=
  (kvs.find? (fun kv => kv.1 == k)).map (fun kv => kv.2)

/-- `dict` assignment (`d[k] = v`): overwrite in place, else append. -/
def objSet (kvs : List (List Char × Json)) (k : List Char) (v : Json) :
    List (List Char × Json) :=
  if objHasKey kvs k then kvs.map (fun kv => if kv.1 == k then (kv.1, v) else kv)
  else kvs ++ [(k, v)]

/-- `dict(pairs)`: sequential insertion of parsed members. -/
def dictOfPairs (ps : List (List Char × Json)) : List (List Char × Json) :=
  ps.foldl (fun acc kv => objSet acc kv.1 kv.2) []

/-- The whitespace `json.loads` skips between tokens. -/
def isJWS (c : Char) : Bool := c = ' ' || c = '\t' || c = '\n' || c = '\r'

def skipJWS (l : List Char) : List Char := l.dropWhile isJWS

/-- The escape sequences of a JSON string literal (`\uXXXX` omitted: the
model only needs the printable subset). -/
def unescapeChar (c : Char) : Option Char :=
  if c = '\x22' then some '\x22'
  else if c = '\x5c' then some '\x5c'
  else if c = '/' then some '/'
  else if c = 'n' then some '\n'
  else if c = 't' then some '\t'
  else if c = 'r' then some '\r'
  else if c = 'b' then some '\x08'
  else if c = 'f' then some '\x0c'
  else none

/-- Body of a JSON string literal, after the opening quote: the decoded
content and the text after the closing quote. -/
def parseStringBody : List Char → Option (List Char × List Char)
  | [] => none
  | c :: cs =>
    if c = '\x22' then some ([], cs)
    else if c = '\x5c' then
      match cs with
      | [] => none
      | e :: cs2 =>
        match unescapeChar e with
        | some d => (parseStringBody cs2).map (fun r => (d :: r.1, r.2))
        | none => none
    else (parseStringBody cs).map (fun r => (c :: r.1, r.2))

def isDigitC (c : Char) : Bool := '0' ≤ c && c ≤ '9'

def digitsToNat (ds : List Char) : Nat :=
  ds.foldl (fun acc d => acc * 10 + (d.toNat - 48)) 0

def parseNatTok (l : List Char) : Option (Nat × List Char) :=
  let ds := l.takeWhile isDigitC
  if ds.isEmpty then none else some (digitsToNat ds, l.dropWhile isDigitC)

mutual

/-- One JSON value (integers only among numbers), fuel-indexed so the
parser is structurally recursive and evaluates in the kernel. -/
def parseVal : Nat → List Char → Option (Json × List Char)
  | 0, _ => none
  | f + 1, l =>
    match skipJWS l with
    | [] => none
    | c :: cs =>
      if c = '\x22' then (parseStringBody cs).map (fun r => (Json.str r.1, r.2))
      else if c = '\x7b' then
        match skipJWS cs with
        | [] => none
        | c2 :: cs2 =>
          if c2 = '\x7d' then some (Json.obj [], cs2)
          else (parseMembers f (c2 :: cs2)).map (fun r => (Json.obj (dictOfPairs r.1), r.2))
      else if c = '[' then
        match skipJWS cs with
        | [] => none
        | c2 :: cs2 =>
          if c2 = ']' then some (Json.arr [], cs2)
          else (parseItems f (c2 :: cs2)).map (fun r => (Json.arr r.1, r.2))
      else if c = 't' then
        if ['r', 'u', 'e'].isPrefixOf cs then some (Json.bool true, cs.drop 3) else none
      else if c = 'f' then
        if ['a', 'l', 's', 'e'].isPrefixOf cs then some (Json.bool false, cs.drop 4) else none
      else if c = 'n' then
        if ['u', 'l', 'l'].isPrefixOf cs then some (Json.null, cs.drop 3) else none
      else if c = '-' then
        (parseNatTok cs).map (fun r => (Json.num (-(r.1 : Int)), r.2))
      else if isDigitC c then
        (parseNatTok (c :: cs)).map (fun r => (Json.num (r.1 : Int), r.2))
      else none

/-- The members of a JSON object, after the opening brace of a non-empty
object: the raw key/value pairs in source order and the text after the
closing brace. -/
def parseMembers : Nat → List Char → Option (List (List Char × Json) × List Char)
  | 0, _ => none
  | f + 1, l =>
    match skipJWS l with
    | [] => none
    | c :: cs =>
      if c = '\x22' then
        match parseStringBody cs with
        | none => none
        | some (k, rest) =>
          match skipJWS rest with
          | [] => none
          | c2 :: rest2 =>
            if c2 = ':' then
              match parseVal f rest2 with
              | none => none
              | some (v, rest3) =>
                match skipJWS rest3 with
                | [] => none
                | c3 :: rest4 =>
                  if c3 = ',' then
                    (parseMembers f rest4).map (fun r => ((k, v) :: r.1, r.2))
                  else if c3 = '\x7d' then some ([(k, v)], rest4)
                  else none
            else none
      else none

/-- The items of a non-empty JSON array. -/
def parseItems : Nat → List Char → Option (List Json × List Char)
  | 0, _ => none
  | f + 1, l =>
    match parseVal f l with
    | none => none
    | some (v, rest) =>
      match skipJWS rest with
      | [] => none
      | c :: rest2 =>
        if c = ',' then (parseItems f rest2).map (fun r => (v :: r.1, r.2))
        else if c = ']' then some ([v], rest2)
        else none

end

/-- Model of `json.loads`: parse one value and require only whitespace
after it. -/
def json_loads (l : List Char) : Option Json :=
  match parseVal (l.length + 1) l with
  | some (v, rest) => if (skipJWS rest).isEmpty then some v else none
  | none => none

/-- Model of `json.dumps` on one string value: escape the quote and the
backslash, pass other characters through. -/
def escJsonChar (c : Char) : List Char :=
  if c = '\x22' || c = '\x5c' then ['\x5c', c] else [c]

def escJsonString (s : List Char) : List Char := (s.map escJsonChar).flatten

def quoteJson (s : List Char) : List Char := '\x22' :: escJsonString s ++ ['\x22']

/-- One `"key": "value"` member, with `json.dumps`'s default `": "`
separator. -/
def dumpsEntry (kv : List Char × List Char) : List Char :=
  quoteJson kv.1 ++ ':' :: ' ' :: quoteJson kv.2

/-- Model of `json.dumps` on a flat string-valued dict, with the default
`", "` item separator. -/
def json_dumps_strobj (kvs : List (List Char × List Char)) : List Char :=
  '\x7b' :: joinWith [',', ' '] (kvs.map dumpsEntry) ++ ['\x7d']

/-! ## Defaults and fallback (`main.py` lines 149-203) -/

def htmlKey : List Char := "html_code".toList
def cssKey : List Char := "css_code".toList
def jsKey : List Char := "js_code".toList

/-- The `required_fields` list of `safe_parse_llm_json`. -/
def requiredFields : List (List Char) := [htmlKey, cssKey, jsKey]

def defaultHtmlCode : List Char :=
  ("<!DOCTYPE html>\n<html lang=\"en\">\n<head>\n    <meta charset=\"UTF-8\">\n    <meta name=\"viewport\" content=\"width=device-width, initial-scale=1.0\">\n    <title>My Portfolio</title>\n    <link rel=\"stylesheet\" href=\"style.css\">\n</head>\n<body>\n    <div class=\"container\">\n        <h1>Portfolio</h1>\n        <p>Generated from resume</p>\n    </div>\n    <script src=\"script.js\"></script>\n</body>\n</html>").toList

def defaultCssCode : List Char :=
  ("* \x7b\n    margin: 0;\n    padding: 0;\n    box-sizing: border-box;\n\x7d\n\nbody \x7b\n    font-family: Arial, sans-serif;\n    line-height: 1.6;\n    color: #333;\n    background-color: #f4f4f4;\n\x7d\n\n.container \x7b\n    max-width: 1200px;\n    margin: 0 auto;\n    padding: 20px;\n    background: white;\n    border-radius: 10px;\n    box-shadow: 0 0 10px rgba(0,0,0,0.1);\n\x7d").toList

def defaultJsCode : List Char :=
  ("console.log(\"Portfolio loaded successfully\");\n\ndocument.addEventListener(\"DOMContentLoaded\", function() \x7b\n    console.log(\"DOM loaded\");\n\x7d);").toList

/-- `get_default_code(field_type)` from `main.py`. -/
def get_default_code (field : List Char) : List Char :=
  if field == htmlKey then defaultHtmlCode
  else if field == cssKey then defaultCssCode
  else if field == jsKey then defaultJsCode
  else "// Default code".toList

/-- `get_fallback_portfolio()` from `main.py`. -/
def get_fallback_portfolio : Json :=
  Json.obj [(htmlKey, Json.str (get_default_code htmlKey)),
            (cssKey, Json.str (get_default_code cssKey)),
            (jsKey, Json.str (get_default_code jsKey))]

/-! ## Response sanitizer (`main.py` lines 96-147, `safe_parse_llm_json`) -/

/-- The exceptions `safe_parse_llm_json` can raise: the HTTP 500
"Empty response from AI model" error, and the `TypeError` Python raises
when the required-field loop runs `field not in x` / `x[field] = v` on a
parsed value that is not a dict. -/
inductive SanitizeError where
  | emptyResponse : SanitizeError
  | typeError : SanitizeError
deriving DecidableEq

/-- First index of a character (Python `str.find`, `None` for `-1`). -/
def findChar (c : Char) : List Char → Option Nat
  | [] => none
  | d :: ds => if d = c then some 0 else (findChar c ds).map (fun i => i + 1)

/-- Last index of a character (Python `str.rfind`, `None` for `-1`). -/
def rfindChar (c : Char) (l : List Char) : Option Nat :=
  match findChar c l.reverse with
  | some i => some (l.length - 1 - i)
  | none => none

def fenceToken : List Char := ['\x60', '\x60', '\x60']

/-- Lines 106-117: if the text starts with a code fence, drop through the
first newline; then, if it ends with a fence, drop the last three
characters and strip. -/
def stripCodeFence (l : List Char) : List Char :=
  if fenceToken.isPrefixOf l then
    let l1 := match findChar '\n' l with
      | some n => l.drop (n + 1)
      | none => l
    if fenceToken.isSuffixOf l1 then pyStrip (l1.take (l1.length - 3)) else l1
  else l

/-- Lines 119-124: slice from the first `{` to the last `}` when
`json_start != -1 and json_end > json_start` (with `json_end` the `rfind`
result plus one, zero when `rfind` is `-1`). -/
def sliceBraces (l : List Char) : List Char :=
  match findChar '\x7b' l, rfindChar '\x7d' l with
  | some s, some e => if e + 1 > s then (l.drop s).take (e + 1 - s) else l
  | _, _ => l

def pyContainsChar (c : Char) (l : List Char) : Bool := l.any (fun d => d == c)

/-- Lines 126-129: replace single quotes by double quotes when the text
has single quotes and no double quote. -/
def fixQuotes (l : List Char) : List Char :=
  if pyContainsChar '\x27' l && !(pyContainsChar '\x22' l) then
    l.map (fun c => if c == '\x27' then '\x22' else c)
  else l

/-- The whole cleaning pipeline of lines 105-129. -/
def cleanLLMText (text : List Char) : List Char :=
  fixQuotes (sliceBraces (stripCodeFence (pyStrip text)))

/-- Index of the first occurrence of `sep` as a contiguous substring
(Python `str.find` on a substring, `None` for `-1`). -/
def findSub (sep : List Char) : List Char → Option Nat
  | [] => if sep.isEmpty then some 0 else none
  | c :: cs => if sep.isPrefixOf (c :: cs) then some 0 else (findSub sep cs).map (fun i => i + 1)

/-- Python `field in parsed_json`: key membership for a dict, element
equality for a list, substring containment for a string, `TypeError`
otherwise. -/
def pyHasKey : Json → List Char → Except SanitizeError Bool
  | Json.obj kvs, k => Except.ok (objHasKey kvs k)
  | Json.arr xs, k =>
    Except.ok (xs.any (fun e => match e with | Json.str s => s == k | _ => false))
  | Json.str s, k => Except.ok ((findSub k s).isSome)
  | _, _ => Except.error SanitizeError.typeError

/-- Python `parsed_json[field] = v`: dict assignment, `TypeError` on any
other value. -/
def pySetKey : Json → List Char → Json → Except SanitizeError Json
  | Json.obj kvs, k, v => Except.ok (Json.obj (objSet kvs k v))
  | _, _, _ => Except.error SanitizeError.typeError

/-- Lines 135-138: the loop filling in absent required fields. -/
def fillRequiredGo : List (List Char) → Json → Except SanitizeError Json
  | [], v => Except.ok v
  | k :: ks, v =>
    match pyHasKey v k with
    | Except.error e => Except.error e
    | Except.ok true => fillRequiredGo ks v
    | Except.ok false =>
      match pySetKey v k (Json.str (get_default_code k)) with
      | Except.error e => Except.error e
      | Except.ok v2 => fillRequiredGo ks v2

def fillRequired (v : Json) : Except SanitizeError Json := fillRequiredGo requiredFields v

/-- One step of the required-field loop on a parsed dict: append the key
with its per-key default when absent. -/
def fillStep (acc : List (List Char × Json)) (k : List Char) : List (List Char × Json) :=
  if objHasKey acc k then acc else acc ++ [(k, Json.str (get_default_code k))]

/-- The effect of the required-field loop on a parsed dict, as a pure
function: append each absent required key with its per-key default. -/
def fillKeys (kvs : List (List Char × Json)) : List (List Char × Json) :=
  requiredFields.foldl fillStep kvs

/-- `safe_parse_llm_json(text)` from `main.py`: empty-response check,
cleaning, parse, required-field fill; parse failure yields the fallback
portfolio. -/
def safe_parse_llm_json (text : List Char) : Except SanitizeError Json :=
  if (pyStrip text).isEmpty then Except.error SanitizeError.emptyResponse
  else
    match json_loads (cleanLLMText text) with
    | some v => fillRequired v
    | none => Except.ok get_fallback_portfolio

/-! ## Code generator (`main.py` lines 205-257, `generate_code_from_summary`)

The LLM client is an external collaborator; each of the three attempts is
modelled by an outcome: the call raises, or returns response text. -/

inductive AttemptOutcome where
  | raises : AttemptOutcome
  | returns : List Char → AttemptOutcome

/-- The `for attempt in range(max_retries)` loop: `rest.isEmpty` is
`attempt == max_retries - 1`.  An exhausted loop falls off the end of the
Python function, returning `None` (`none` here). -/
def genAttemptsGo : List AttemptOutcome → Option Json
  | [] => none
  | a :: rest =>
    match a with
    | AttemptOutcome.raises =>
      if rest.isEmpty then some get_fallback_portfolio else genAttemptsGo rest
    | AttemptOutcome.returns t =>
      let response := pyStrip t
      if response.isEmpty then genAttemptsGo rest
      else
        match safe_parse_llm_json response with
        | Except.ok v => some v
        | Except.error _ =>
          if rest.isEmpty then some get_fallback_portfolio else genAttemptsGo rest

/-- `generate_code_from_summary` with `max_retries = 3`: the three
attempt outcomes determine the result. -/
def generate_code_from_summary (a1 a2 a3 : AttemptOutcome) : Option Json :=
  genAttemptsGo [a1, a2, a3]

/-! ## Summarizer (`main.py` lines 79-94, `summarize`) -/

inductive SummOutcome where
  | raises : SummOutcome
  | returns : List Char → SummOutcome

/-- The locally constructed fallback summary
`f"Summary of resume section {i+1}: {chunk[:200]}..."`. -/
def sectionFallback (i : Nat) (chunk : List Char) : List Char :=
  "Summary of resume section ".toList ++ (Nat.repr (i + 1)).toList ++ ": ".toList
    ++ chunk.take 200 ++ "...".toList

/-- `summarize(client, chunk, i)`: the stripped response on success, the
local fallback when the call raises. -/
def summarize (o : SummOutcome) (chunk : List Char) (i : Nat) : List Char :=
  match o with
  | SummOutcome.returns t => pyStrip t
  | SummOutcome.raises => sectionFallback i chunk

/-- The `for i, chunk in enumerate(chunks)` loop of `upload_resume`
(lines 306-309), one summary appended per chunk. -/
def summarizeBatchGo (o : Nat → SummOutcome) : Nat → List (List Char) → List (List Char)
  | _, [] => []
  | i, c :: cs => summarize (o i) c i :: summarizeBatchGo o (i + 1) cs

def summarizeBatch (o : Nat → SummOutcome) (chunks : List (List Char)) : List (List Char) :=
  summarizeBatchGo o 0 chunks

/-! ## Deploy endpoint (`main.py` lines 38-55)

The filesystem is a map from paths to file contents.  The dummy
`deploy_html_code` of `main.py` writes three fixed paths and returns a
constant URL; it runs no external command, recorded by an (empty) command
trace. -/

def FSModel : Type := String → Option String

def fsWrite (fs : FSModel) (p content : String) : FSModel :=
  fun q => if q = p then some content else fs q

structure DeployRequest where
  html_code : String
  css_code : String
  js_code : String

/-- The dummy `deploy_html_code(html, css, js)` defined in `main.py`
(not the one in `deployer.py`): write the three files into the fixed
folder `deployed_site` and return the constant URL.  The middle component
is the list of external commands run — there are none. -/
def deploy_html_code_main (fs : FSModel) (html css js : String) :
    FSModel × List String × String :=
  let fs1 := fsWrite fs "deployed_site/index.html" html
  let fs2 := fsWrite fs1 "deployed_site/style.css" css
  let fs3 := fsWrite fs2 "deployed_site/script.js" js
  (fs3, [], "https://example.netlify.app")

inductive DeployHTTPResult where
  | ok : String → DeployHTTPResult
  | httpError : Nat → String → DeployHTTPResult

/-- The `POST /deploy-site/` handler (lines 49-55): call the dummy
deploy; the model function is total, so the handler's `except` branch is
unreachable and the response is always the returned URL. -/
def deploy_site (fs : FSModel) (d : DeployRequest) :
    FSModel × List String × DeployHTTPResult :=
  let r := deploy_html_code_main fs d.html_code d.css_code d.js_code
  (r.1, r.2.1, DeployHTTPResult.ok r.2.2)

/-! ## Site deployer output parsing (`deployer.py` lines 21-30)

The subprocess itself is an external collaborator; its standard output
(after a zero exit status, guaranteed by `check=True`) is given as a list
of lines, as `splitlines()` produces. -/

def websiteMarker : List Char := "Website URL:".toList

/-- Remainder after the last left-to-right non-overlapping occurrence of
`sep`: Python `line.split(sep)[-1]`.  Fuel-indexed (one unit per
occurrence removed) so the search is structurally recursive. -/
def lastPartGo (sep : List Char) : Nat → List Char → List Char
  | 0, l => l
  | f + 1, l =>
    match findSub sep l with
    | none => l
    | some i => lastPartGo sep f (l.drop (i + sep.length))

def pySplitLast (sep l : List Char) : List Char := lastPartGo sep (l.length + 1) l

def deployNoUrlMsg : List Char := "Deployment succeeded but no URL found.".toList

/-- The `for line in result.stdout.splitlines()` loop of
`deploy_html_code` in `deployer.py`: return the trimmed text after the
marker on the first line containing it, else raise. -/
def deployFindURL (lines : List (List Char)) : Except (List Char) (List Char) :=
  match lines with
  | [] => Except.error deployNoUrlMsg
  | line :: rest =>
    if (findSub websiteMarker line).isSome then
      Except.ok (pyStrip (pySplitLast websiteMarker line))
    else deployFindURL rest

/-! ## Upload handler temp-file lifecycle (`main.py` lines 266-291)

Only the file-saving and text-extraction stages touch the temporary
file.  Saving is modelled by three outcomes: the write succeeds; `open`
or `f.write` raises after the file was created; `open` raises before
creating it.  Extraction succeeds or raises.  The model returns whether
the temp file still exists when the handler returns or raises, and
whether the handler raises at these stages. -/

inductive SaveOutcome where
  | saved : SaveOutcome
  | failedAfterCreate : SaveOutcome
  | failedBeforeCreate : SaveOutcome

inductive ExtractOutcome where
  | extracted : List Char → ExtractOutcome
  | failed : ExtractOutcome

/-- Lines 278-288: `try: extract ... except: raise HTTPException ...
finally: if os.path.exists(path): os.remove(path)`. -/
def runExtractStage (fileExists : Bool) (ex : ExtractOutcome) : Bool × Bool :=
  let raised := match ex with
    | ExtractOutcome.extracted _ => false
    | ExtractOutcome.failed => true
  let fileExists2 := if fileExists then false else fileExists
  (fileExists2, raised)

/-- Lines 270-288: the save `try/except` (no `finally`, lines 270-275)
followed by the extraction stage.  First component: does the temp file
still exist when the handler leaves these stages; second: did the
handler raise. -/
def upload_resume_file_stage (save : SaveOutcome) (ex : ExtractOutcome) : Bool × Bool :=
  match save with
  | SaveOutcome.failedBeforeCreate => (false, true)
  | SaveOutcome.failedAfterCreate => (true, true)
  | SaveOutcome.saved => runExtractStage true ex

/-! ### Lemmas about `splitWS` -/

theorem splitWSAux_nil (acc : List Char) :
    splitWSAux [] acc = if acc.isEmpty then [] else [acc.reverse] := rfl

theorem splitWSAux_cons (c : Char) (cs acc : List Char) :
    splitWSAux (c :: cs) acc =
      if isWS c then
        (if acc.isEmpty then splitWSAux cs [] else acc.reverse :: splitWSAux cs [])
      else splitWSAux cs (c :: acc) := rfl

theorem chunkLoop_nil (maxCS : Nat) (chunks : List (List Char)) (cur : List Char) :
    chunkLoop maxCS [] chunks cur = if cur.isEmpty then chunks else chunks ++ [cur] := rfl

theorem chunkLoop_cons (maxCS : Nat) (w : List Char) (ws chunks : List (List Char))
    (cur : List Char) :
    chunkLoop maxCS (w :: ws) chunks cur =
      if cur.length + w.length + 1 > maxCS then
        chunkLoop maxCS ws (chunks ++ [cur]) w
      else
        chunkLoop maxCS ws chunks (if cur.isEmpty then w else cur ++ ' ' :: w) := rfl

theorem splitWSAux_append_sep (sep : Char) (hsep : isWS sep = true) (ys : List Char) :
    ∀ (l : List Char) (acc : List Char),
      splitWSAux (l ++ sep :: ys) acc = splitWSAux l acc ++ splitWSAux ys [] := by
  intro l
  induction l with
  | nil =>
    intro acc
    rw [List.nil_append, splitWSAux_cons, if_pos hsep, splitWSAux_nil]
    by_cases h : acc.isEmpty
    · rw [if_pos h, if_pos h, List.nil_append]
    · rw [if_neg h, if_neg h, List.singleton_append]
  | cons c cs ih =>
    intro acc
    rw [List.cons_append, splitWSAux_cons, splitWSAux_cons]
    by_cases hc : isWS c
    · rw [if_pos hc, if_pos hc]
      by_cases h : acc.isEmpty
      · rw [if_pos h, if_pos h, ih]
      · rw [if_neg h, if_neg h, ih, List.cons_append]
    · rw [if_neg hc, if_neg hc, ih]

theorem splitWS_append_sep (sep : Char) (hsep : isWS sep = true) (xs ys : List Char) :
    splitWS (xs ++ sep :: ys) = splitWS xs ++ splitWS ys := by
  simpa [splitWS] using splitWSAux_append_sep sep hsep ys xs []

theorem splitWSAux_words :
    ∀ (l : List Char) (acc : List Char), (∀ c ∈ acc, isWS c = false) →
      ∀ w ∈ splitWSAux l acc, w ≠ [] ∧ ∀ c ∈ w, isWS c = false := by
  intro l
  induction l with
  | nil =>
    intro acc hacc w hw
    rw [splitWSAux_nil] at hw
    by_cases h : acc.isEmpty
    · rw [if_pos h] at hw
      simp at hw
    · rw [if_neg h] at hw
      have hne : acc ≠ [] := List.isEmpty_eq_false.mp (Bool.not_eq_true _ ▸ eq_false_of_ne_true h)
      have hw2 : w = acc.reverse := List.mem_singleton.mp hw
      subst hw2
      exact ⟨by simpa using hne, fun c hc => hacc c (List.mem_reverse.mp hc)⟩
  | cons c cs ih =>
    intro acc hacc w hw
    rw [splitWSAux_cons] at hw
    by_cases hc : isWS c
    · rw [if_pos hc] at hw
      by_cases h : acc.isEmpty
      · rw [if_pos h] at hw
        exact ih [] (by simp) w hw
      · rw [if_neg h] at hw
        have hne : acc ≠ [] := List.isEmpty_eq_false.mp (Bool.not_eq_true _ ▸ eq_false_of_ne_true h)
        rcases List.mem_cons.mp hw with hw2 | hw2
        · subst hw2
          exact ⟨by simpa using hne, fun d hd => hacc d (List.mem_reverse.mp hd)⟩
        · exact ih [] (by simp) w hw2
    · rw [if_neg hc] at hw
      refine ih (c :: acc) ?_ w hw
      intro d hd
      rcases List.mem_cons.mp hd with h | h
      · subst h
        exact eq_false_of_ne_true hc
      · exact hacc d h

theorem splitWS_words (l : List Char) :
    ∀ w ∈ splitWS l, w ≠ [] ∧ ∀ c ∈ w, isWS c = false :=
  splitWSAux_words l [] (by simp)

theorem splitWSAux_single :
    ∀ (w acc : List Char), (∀ c ∈ w, isWS c = false) → (acc ≠ [] ∨ w ≠ []) →
      splitWSAux w acc = [acc.reverse ++ w] := by
  intro w
  induction w with
  | nil =>
    intro acc _ hne
    have h : acc ≠ [] := by
      rcases hne with h | h
      · exact h
      · exact absurd rfl h
    rw [splitWSAux_nil, if_neg (by simpa [List.isEmpty_iff] using h)]
    simp
  | cons c cs ih =>
    intro acc hall _
    have hc : isWS c = false := hall c (List.mem_cons_self c cs)
    rw [splitWSAux_cons, if_neg (by simp [hc])]
    rw [ih (c :: acc) (fun d hd => hall d (List.mem_cons_of_mem c hd)) (Or.inl (by simp))]
    simp

theorem splitWS_single (w : List Char) (hall : ∀ c ∈ w, isWS c = false) (hne : w ≠ []) :
    splitWS w = [w] := by
  simpa [splitWS] using splitWSAux_single w [] hall (Or.inr hne)

/-! ### Chunk reassembly (claim C5) and chunk bounds (claim C4) -/

theorem joinSplit_append (a b : List (List Char)) :
    joinSplit (a ++ b) = joinSplit a ++ joinSplit b := by
  simp [joinSplit]

theorem splitWS_nil : splitWS [] = [] := rfl

theorem chunkLoop_joinSplit (maxCS : Nat) :
    ∀ (ws : List (List Char)) (chunks : List (List Char)) (cur : List Char),
      (∀ w ∈ ws, (∀ c ∈ w, isWS c = false) ∧ w ≠ []) →
      joinSplit (chunkLoop maxCS ws chunks cur) = joinSplit chunks ++ splitWS cur ++ ws := by
  intro ws
  induction ws with
  | nil =>
    intro chunks cur _
    rw [chunkLoop_nil]
    by_cases h : cur.isEmpty
    · have hc : cur = [] := List.isEmpty_iff.mp h
      subst hc
      simp [splitWS_nil]
    · rw [if_neg h, joinSplit_append]
      simp [joinSplit]
  | cons w ws ih =>
    intro chunks cur hws
    have hw := hws w (List.mem_cons_self w ws)
    have hrest : ∀ v ∈ ws, (∀ c ∈ v, isWS c = false) ∧ v ≠ [] :=
      fun v hv => hws v (List.mem_cons_of_mem w hv)
    have hsw : splitWS w = [w] := splitWS_single w hw.1 hw.2
    rw [chunkLoop_cons]
    by_cases hcond : cur.length + w.length + 1 > maxCS
    · rw [if_pos hcond, ih (chunks ++ [cur]) w hrest, joinSplit_append, hsw]
      simp [joinSplit]
    · rw [if_neg hcond]
      by_cases hcur : cur.isEmpty
      · have hc : cur = [] := List.isEmpty_iff.mp hcur
        subst hc
        have hstep : (if ([] : List Char).isEmpty then w else [] ++ ' ' :: w) = w := by simp
        rw [hstep, ih chunks w hrest, hsw, splitWS_nil]
        simp
      · rw [if_neg hcur, ih chunks (cur ++ ' ' :: w) hrest,
          splitWS_append_sep ' ' (by decide) cur w, hsw]
        simp

theorem splitWS_joinWith_space (l : List (List Char)) :
    splitWS (joinWith [' '] l) = joinSplit l := by
  induction l with
  | nil => simp [joinWith, joinSplit, splitWS_nil]
  | cons x rest ih =>
    cases rest with
    | nil => simp [joinWith, joinSplit]
    | cons y r =>
      have h : joinWith [' '] (x :: y :: r) = x ++ ' ' :: joinWith [' '] (y :: r) := by
        simp [joinWith]
      rw [h, splitWS_append_sep ' ' (by decide), ih]
      simp [joinSplit]

theorem chunk_text_joinSplit (text : List Char) (maxCS : Nat) :
    joinSplit (chunk_text text maxCS) = splitWS text := by
  have h := chunkLoop_joinSplit maxCS (splitWS text) [] []
    (fun w hw => ⟨(splitWS_words text w hw).2, (splitWS_words text w hw).1⟩)
  simpa [chunk_text, joinSplit, splitWS_nil] using h

/-- C5: for every input text, joining the chunks produced by `chunk_text`
with single spaces and collapsing whitespace yields exactly the
whitespace-normalized input text: the chunks, in order, contain all the
input's words and nothing else. -/
theorem chunk_text_reassembly (text : List Char) (maxCS : Nat) :
    normalizeWS (joinWith [' '] (chunk_text text maxCS)) = normalizeWS text := by
  unfold normalizeWS
  rw [splitWS_joinWith_space, chunk_text_joinSplit]

theorem chunkLoop_bounds (maxCS : Nat) :
    ∀ (ws : List (List Char)) (chunks : List (List Char)) (cur : List Char),
      (∀ w ∈ ws, w.length < maxCS) →
      (∀ c ∈ chunks, c ≠ [] ∧ c.length ≤ maxCS) →
      cur.length ≤ maxCS →
      ∀ c ∈ chunkLoop maxCS ws chunks cur, c ≠ [] ∧ c.length ≤ maxCS := by
  intro ws
  induction ws with
  | nil =>
    intro chunks cur _ hchunks hcur c hc
    rw [chunkLoop_nil] at hc
    by_cases h : cur.isEmpty
    · rw [if_pos h] at hc
      exact hchunks c hc
    · rw [if_neg h] at hc
      rcases List.mem_append.mp hc with hc2 | hc2
      · exact hchunks c hc2
      · have hc3 : c = cur := List.mem_singleton.mp hc2
        subst hc3
        exact ⟨List.isEmpty_eq_false.mp (Bool.not_eq_true _ ▸ eq_false_of_ne_true h), hcur⟩
  | cons w ws ih =>
    intro chunks cur hws hchunks hcur c hc
    have hw : w.length < maxCS := hws w (List.mem_cons_self w ws)
    have hrest : ∀ v ∈ ws, v.length < maxCS := fun v hv => hws v (List.mem_cons_of_mem w hv)
    rw [chunkLoop_cons] at hc
    by_cases hcond : cur.length + w.length + 1 > maxCS
    · rw [if_pos hcond] at hc
      have hcurne : cur ≠ [] := by
        intro h
        subst h
        simp only [List.length_nil] at hcond
        omega
      refine ih (chunks ++ [cur]) w hrest ?_ (le_of_lt hw) c hc
      intro d hd
      rcases List.mem_append.mp hd with h | h
      · exact hchunks d h
      · have h2 : d = cur := List.mem_singleton.mp h
        subst h2
        exact ⟨hcurne, hcur⟩
    · rw [if_neg hcond] at hc
      by_cases hce : cur.isEmpty
      · rw [if_pos hce] at hc
        exact ih chunks w hrest hchunks (le_of_lt hw) c hc
      · rw [if_neg hce] at hc
        refine ih chunks (cur ++ ' ' :: w) hrest hchunks ?_ c hc
        simp only [List.length_append, List.length_cons]
        omega

/-- C4 counterexample: with maximum chunk size 3 and the single word
"abcd", `chunk_text` produces an empty chunk and a chunk longer than the
maximum, refuting the claimed bounds. -/
theorem chunk_text_bounds_cex :
    chunk_text ['a', 'b', 'c', 'd'] 3 = [[], ['a', 'b', 'c', 'd']] ∧
    ¬ (∀ c ∈ chunk_text ['a', 'b', 'c', 'd'] 3, c ≠ [] ∧ c.length ≤ 3) := by
  decide

/-- C4 (amended): if every word of the input is strictly shorter than the
maximum chunk size, then every chunk produced by `chunk_text` is non-empty
and no longer than the maximum, no word is split across a chunk boundary
(the chunks' words are exactly the input's words, in order), and empty
input yields the empty sequence. -/
theorem chunk_text_bounds_amended (text : List Char) (maxCS : Nat)
    (h : ∀ w ∈ splitWS text, w.length < maxCS) :
    (∀ c ∈ chunk_text text maxCS, c ≠ [] ∧ c.length ≤ maxCS) ∧
    joinSplit (chunk_text text maxCS) = splitWS text ∧
    chunk_text [] maxCS = [] := by
  refine ⟨?_, chunk_text_joinSplit text maxCS, rfl⟩
  exact chunkLoop_bounds maxCS (splitWS text) [] [] h (by simp) (by simp)

/-- C4 witness: the amended bounds at the concrete input "hi yo" with
maximum chunk size 4. -/
theorem chunk_text_bounds_amended_witness :
    (∀ w ∈ splitWS ['h', 'i', ' ', 'y', 'o'], w.length < 4) ∧
    ((∀ c ∈ chunk_text ['h', 'i', ' ', 'y', 'o'] 4, c ≠ [] ∧ c.length ≤ 4) ∧
      joinSplit (chunk_text ['h', 'i', ' ', 'y', 'o'] 4) = splitWS ['h', 'i', ' ', 'y', 'o'] ∧
      chunk_text [] 4 = []) :=
  ⟨by decide, chunk_text_bounds_amended ['h', 'i', ' ', 'y', 'o'] 4 (by decide)⟩

/-! ## Theorems: code generator (C1), deploy endpoint (C3), upload
cleanup (C9), summarizer (C8) -/

/-- C1: when the generation capability raises on all three attempts,
`generate_code_from_summary` returns the fixed fallback portfolio; but
when every attempt returns empty text, the loop exhausts through the
`continue` branch and the function falls off its end, returning `None`
instead of a `PortfolioResult` — the code contradicts the spec's
guarantee that the caller always receives a usable three-file site. -/
theorem generate_code_exhaustion_behavior :
    generate_code_from_summary AttemptOutcome.raises AttemptOutcome.raises
      AttemptOutcome.raises = some get_fallback_portfolio ∧
    generate_code_from_summary (AttemptOutcome.returns []) (AttemptOutcome.returns [])
      (AttemptOutcome.returns []) = none :=
  ⟨rfl, rfl⟩

/-- C3: the `/deploy-site/` handler calls the dummy deploy of `main.py`:
it always answers the constant URL `https://example.netlify.app` (never
an HTTP error), runs no external command, and writes the three code
strings of the latest request into the single fixed `deployed_site`
directory, overwriting what an earlier request wrote there. -/
theorem deploy_site_dummy_behavior (fs : FSModel) (d d2 : DeployRequest) :
    (deploy_site fs d).2.2 = DeployHTTPResult.ok "https://example.netlify.app" ∧
    (deploy_site fs d).2.1 = [] ∧
    (deploy_site (deploy_site fs d).1 d2).1 "deployed_site/index.html" = some d2.html_code ∧
    (deploy_site (deploy_site fs d).1 d2).1 "deployed_site/style.css" = some d2.css_code ∧
    (deploy_site (deploy_site fs d).1 d2).1 "deployed_site/script.js" = some d2.js_code := by
  refine ⟨rfl, rfl, ?_, ?_, ?_⟩ <;>
    simp [deploy_site, deploy_html_code_main, fsWrite]

/-- C9 counterexample: when saving fails after the temporary file was
created (for instance `f.write` raising on a full disk), the handler
raises with the temporary file still present, refuting removal "whether
saving succeeds or fails". -/
theorem upload_tempfile_cleanup_cex :
    (upload_resume_file_stage SaveOutcome.failedAfterCreate ExtractOutcome.failed).1 = true ∧
    (upload_resume_file_stage SaveOutcome.failedAfterCreate ExtractOutcome.failed).2 = true := by
  exact ⟨rfl, rfl⟩

/-- C9 (amended): for every request that reaches the text-extraction
step (saving succeeded), the temporary file is removed before the
handler returns or raises, whether extraction succeeds or fails; it is
also absent when `open` failed before creating it; only a save failure
after creation leaves the file behind. -/
theorem upload_tempfile_cleanup_amended (ex : ExtractOutcome) :
    (upload_resume_file_stage SaveOutcome.saved ex).1 = false ∧
    (upload_resume_file_stage SaveOutcome.failedBeforeCreate ex).1 = false ∧
    (upload_resume_file_stage SaveOutcome.failedAfterCreate ex).1 = true := by
  cases ex <;> exact ⟨rfl, rfl, rfl⟩

theorem summarizeBatchGo_length (o : Nat → SummOutcome) :
    ∀ (chunks : List (List Char)) (i : Nat),
      (summarizeBatchGo o i chunks).length = chunks.length := by
  intro chunks
  induction chunks with
  | nil => intro i; rfl
  | cons c cs ih => intro i; simp [summarizeBatchGo, ih]

theorem summarizeBatchGo_getElem (o : Nat → SummOutcome) :
    ∀ (chunks : List (List Char)) (i0 j : Nat) (c : List Char), chunks[j]? = some c →
      (summarizeBatchGo o i0 chunks)[j]? = some (summarize (o (i0 + j)) c (i0 + j)) := by
  intro chunks
  induction chunks with
  | nil =>
    intro i0 j c h
    simp at h
  | cons x xs ih =>
    intro i0 j c h
    cases j with
    | zero =>
      rw [List.getElem?_cons_zero] at h
      have hx : x = c := Option.some.inj h
      subst hx
      simp [summarizeBatchGo]
    | succ j =>
      rw [List.getElem?_cons_succ] at h
      have h2 := ih (i0 + 1) j c h
      have harith : i0 + 1 + j = i0 + (j + 1) := by omega
      rw [harith] at h2
      simpa [summarizeBatchGo, List.getElem?_cons_succ] using h2

/-- C8: when the generation capability raises, `summarize` swallows the
error and returns the local fallback — the fixed prefix naming the
section index followed by the first 200 characters of the chunk (and a
trailing ellipsis); consequently summarizing a batch always yields one
summary per chunk, with the fallback at every raising index, and never
aborts. -/
theorem summarize_fallback_behavior (o : Nat → SummOutcome) (chunks : List (List Char))
    (chunk : List Char) (i : Nat) :
    summarize SummOutcome.raises chunk i =
      "Summary of resume section ".toList ++ (Nat.repr (i + 1)).toList ++ ": ".toList
        ++ chunk.take 200 ++ "...".toList ∧
    (summarizeBatch o chunks).length = chunks.length ∧
    (∀ j c, chunks[j]? = some c → o j = SummOutcome.raises →
      (summarizeBatch o chunks)[j]? = some (sectionFallback j c)) := by
  refine ⟨rfl, summarizeBatchGo_length o chunks 0, ?_⟩
  intro j c hj ho
  have h := summarizeBatchGo_getElem o chunks 0 j c hj
  rw [Nat.zero_add] at h
  rw [ho] at h
  exact h

/-! ## Theorems: site deployer output parsing (C6) -/

theorem findSub_nil_eq (sep : List Char) :
    findSub sep [] = if sep.isEmpty then some 0 else none := rfl

theorem findSub_cons_eq (sep : List Char) (c : Char) (cs : List Char) :
    findSub sep (c :: cs) =
      if sep.isPrefixOf (c :: cs) then some 0
      else (findSub sep cs).map (fun i => i + 1) := rfl

theorem isPrefixOf_decomp :
    ∀ (sep l : List Char), sep.isPrefixOf l = true → l = sep ++ l.drop sep.length := by
  intro sep
  induction sep with
  | nil =>
    intro l _
    simp
  | cons s ss ih =>
    intro l h
    cases l with
    | nil => simp [List.isPrefixOf] at h
    | cons c cs =>
      rw [List.isPrefixOf_cons₂] at h
      have h2 := Bool.and_eq_true_iff.mp h
      have hs : s = c := beq_iff_eq.mp h2.1
      subst hs
      have hcs := ih cs h2.2
      have hd : (s :: cs).drop (s :: ss).length = cs.drop ss.length := rfl
      rw [hd, List.cons_append]
      exact congrArg (s :: ·) hcs

theorem findSub_decomp (sep : List Char) :
    ∀ (l : List Char) (i : Nat), findSub sep l = some i →
      l = l.take i ++ sep ++ l.drop (i + sep.length) := by
  intro l
  induction l with
  | nil =>
    intro i h
    rw [findSub_nil_eq] at h
    by_cases he : sep.isEmpty
    · have hsep : sep = [] := List.isEmpty_iff.mp he
      subst hsep
      simp
    · rw [if_neg he] at h
      exact Option.noConfusion h
  | cons c cs ih =>
    intro i h
    rw [findSub_cons_eq] at h
    by_cases hp : sep.isPrefixOf (c :: cs)
    · rw [if_pos hp] at h
      have hi : (0 : Nat) = i := Option.some.inj h
      subst hi
      simpa using isPrefixOf_decomp sep (c :: cs) hp
    · rw [if_neg hp] at h
      cases hf : findSub sep cs with
      | none => rw [hf] at h; exact Option.noConfusion h
      | some j =>
        rw [hf] at h
        have hij : j + 1 = i := Option.some.inj h
        subst hij
        have hcs := ih j hf
        have harith : j + 1 + sep.length = (j + sep.length) + 1 := by omega
        rw [List.take_succ_cons, harith, List.drop_succ_cons, List.cons_append,
          List.cons_append]
        exact congrArg (c :: ·) hcs

theorem findSub_nil_of_ne (sep : List Char) (hsep : sep ≠ []) : findSub sep [] = none := by
  rw [findSub_nil_eq, if_neg]
  simp [List.isEmpty_iff, hsep]

theorem lastPartGo_none (sep : List Char) (f : Nat) (l : List Char)
    (h : findSub sep l = none) : lastPartGo sep f l = l := by
  cases f with
  | zero => rfl
  | succ f => simp [lastPartGo, h]

theorem lastPartGo_decomp (sep : List Char) (hsep : sep ≠ []) :
    ∀ (fuel : Nat) (l : List Char), l.length < fuel → (findSub sep l).isSome = true →
      ∃ pre, l = pre ++ sep ++ lastPartGo sep fuel l := by
  intro fuel
  induction fuel with
  | zero =>
    intro l hl _
    omega
  | succ f ih =>
    intro l hl hsome
    obtain ⟨i, hi⟩ := Option.isSome_iff_exists.mp hsome
    have hstep : lastPartGo sep (f + 1) l = lastPartGo sep f (l.drop (i + sep.length)) := by
      simp [lastPartGo, hi]
    have hdec := findSub_decomp sep l i hi
    have hlne : l ≠ [] := by
      intro he
      subst he
      rw [findSub_nil_of_ne sep hsep] at hi
      exact Option.noConfusion hi
    have hseplen : 1 ≤ sep.length := by
      cases sep with
      | nil => exact absurd rfl hsep
      | cons a as => simp
    have hlpos : 1 ≤ l.length := by
      cases l with
      | nil => exact absurd rfl hlne
      | cons a as => simp
    by_cases h2 : (findSub sep (l.drop (i + sep.length))).isSome
    · have hlen2 : (l.drop (i + sep.length)).length < f := by
        rw [List.length_drop]
        omega
      obtain ⟨pre2, hpre2⟩ := ih (l.drop (i + sep.length)) hlen2 h2
      refine ⟨l.take i ++ sep ++ pre2, ?_⟩
      rw [hstep]
      calc l = l.take i ++ sep ++ l.drop (i + sep.length) := hdec
        _ = l.take i ++ sep ++ (pre2 ++ sep ++ lastPartGo sep f (l.drop (i + sep.length))) := by
            rw [← hpre2]
        _ = l.take i ++ sep ++ pre2 ++ sep ++ lastPartGo sep f (l.drop (i + sep.length)) := by
            simp [List.append_assoc]
    · have hnone : findSub sep (l.drop (i + sep.length)) = none :=
        Option.not_isSome_iff_eq_none.mp h2
      refine ⟨l.take i, ?_⟩
      rw [hstep, lastPartGo_none sep f _ hnone]
      exact hdec

theorem pySplitLast_decomp (sep l : List Char) (hsep : sep ≠ [])
    (h : (findSub sep l).isSome = true) :
    ∃ pre, l = pre ++ sep ++ pySplitLast sep l :=
  lastPartGo_decomp sep hsep (l.length + 1) l (by omega) h

theorem deployFindURL_found :
    ∀ (lines : List (List Char)) (line : List Char),
      lines.find? (fun x => (findSub websiteMarker x).isSome) = some line →
      deployFindURL lines = Except.ok (pyStrip (pySplitLast websiteMarker line)) ∧
      (findSub websiteMarker line).isSome = true := by
  intro lines
  induction lines with
  | nil =>
    intro line h
    simp at h
  | cons x xs ih =>
    intro line h
    by_cases hp : (findSub websiteMarker x).isSome
    · simp only [List.find?_cons, hp] at h
      have hx : x = line := Option.some.inj h
      subst hx
      exact ⟨by simp [deployFindURL, hp], hp⟩
    · have hp2 : (findSub websiteMarker x).isSome = false := by simpa using hp
      simp only [List.find?_cons, hp2] at h
      have h2 := ih line h
      exact ⟨by simp [deployFindURL, hp2, h2.1], h2.2⟩

theorem deployFindURL_notfound :
    ∀ (lines : List (List Char)),
      lines.find? (fun x => (findSub websiteMarker x).isSome) = none →
      deployFindURL lines = Except.error deployNoUrlMsg := by
  intro lines
  induction lines with
  | nil => intro _; rfl
  | cons x xs ih =>
    intro h
    rw [List.find?_eq_none] at h
    have hx : ¬ ((findSub websiteMarker x).isSome = true) := h x (List.mem_cons_self x xs)
    have hxs : xs.find? (fun x => (findSub websiteMarker x).isSome) = none :=
      List.find?_eq_none.mpr (fun y hy => h y (List.mem_cons_of_mem x hy))
    simp [deployFindURL, hx, ih hxs]

/-- C6: on the standard output of a successfully exiting deploy command,
if some line contains the marker `Website URL:`, the deployer returns the
trimmed portion of the first such line after the marker (`split` keeps
the part after the last occurrence); the concrete example line
`Website URL: https://site.example` yields exactly
`https://site.example`; and if no line contains the marker it fails with
the `DeploymentError` message. -/
theorem deployer_url_parse (lines : List (List Char)) :
    (∀ line, lines.find? (fun x => (findSub websiteMarker x).isSome) = some line →
      ∃ pre rest, line = pre ++ websiteMarker ++ rest ∧
        deployFindURL lines = Except.ok (pyStrip rest)) ∧
    (lines.find? (fun x => (findSub websiteMarker x).isSome) = none →
      deployFindURL lines = Except.error deployNoUrlMsg) ∧
    deployFindURL ["Website URL: https://site.example".toList] =
      Except.ok ("https://site.example".toList) := by
  refine ⟨?_, deployFindURL_notfound lines, rfl⟩
  intro line h
  obtain ⟨hurl, hsome⟩ := deployFindURL_found lines line h
  obtain ⟨pre, hpre⟩ := pySplitLast_decomp websiteMarker line (by decide) hsome
  exact ⟨pre, pySplitLast websiteMarker line, hpre, hurl⟩

/-! ## Theorems: response sanitizer (C2, C7) -/

theorem pyHasKey_error (v : Json) (k : List Char) (e : SanitizeError)
    (h : pyHasKey v k = Except.error e) : e = SanitizeError.typeError := by
  cases v with
  | null => exact (Except.error.inj h).symm
  | bool b => exact (Except.error.inj h).symm
  | num n => exact (Except.error.inj h).symm
  | str s => exact Except.noConfusion h
  | arr xs => exact Except.noConfusion h
  | obj kvs => exact Except.noConfusion h

theorem pySetKey_error (v : Json) (k : List Char) (w : Json) (e : SanitizeError)
    (h : pySetKey v k w = Except.error e) : e = SanitizeError.typeError := by
  cases v with
  | null => exact (Except.error.inj h).symm
  | bool b => exact (Except.error.inj h).symm
  | num n => exact (Except.error.inj h).symm
  | str s => exact (Except.error.inj h).symm
  | arr xs => exact (Except.error.inj h).symm
  | obj kvs => exact Except.noConfusion h

theorem fillRequiredGo_ne_empty :
    ∀ (ks : List (List Char)) (v : Json),
      fillRequiredGo ks v ≠ Except.error SanitizeError.emptyResponse := by
  intro ks
  induction ks with
  | nil =>
    intro v h
    exact Except.noConfusion h
  | cons k ks ih =>
    intro v
    cases hpk : pyHasKey v k with
    | error e =>
      have he := pyHasKey_error v k e hpk
      subst he
      simp only [fillRequiredGo, hpk]
      intro h
      exact SanitizeError.noConfusion (Except.error.inj h)
    | ok b =>
      cases b with
      | true =>
        simp only [fillRequiredGo, hpk]
        exact ih v
      | false =>
        cases hsk : pySetKey v k (Json.str (get_default_code k)) with
        | error e =>
          have he := pySetKey_error v k _ e hsk
          subst he
          simp only [fillRequiredGo, hpk, hsk]
          intro h
          exact SanitizeError.noConfusion (Except.error.inj h)
        | ok v2 =>
          simp only [fillRequiredGo, hpk, hsk]
          exact ih v2

theorem fillRequiredGo_obj_eq :
    ∀ (ks : List (List Char)) (kvs : List (List Char × Json)),
      fillRequiredGo ks (Json.obj kvs) = Except.ok (Json.obj (ks.foldl fillStep kvs)) := by
  intro ks
  induction ks with
  | nil => intro kvs; rfl
  | cons k ks ih =>
    intro kvs
    by_cases h : objHasKey kvs k
    · have h1 : pyHasKey (Json.obj kvs) k = Except.ok true := by simp [pyHasKey, h]
      simp only [fillRequiredGo, h1, List.foldl_cons, fillStep, if_pos h]
      exact ih kvs
    · have hf : objHasKey kvs k = false := by simpa using h
      have h1 : pyHasKey (Json.obj kvs) k = Except.ok false := by simp [pyHasKey, hf]
      have h2 : pySetKey (Json.obj kvs) k (Json.str (get_default_code k)) =
          Except.ok (Json.obj (kvs ++ [(k, Json.str (get_default_code k))])) := by
        simp [pySetKey, objSet, hf]
      simp only [fillRequiredGo, h1, h2, List.foldl_cons, fillStep, if_neg h]
      exact ih (kvs ++ [(k, Json.str (get_default_code k))])

theorem json_loads_some_strip_ne (text : List Char) (v : Json)
    (h : json_loads (cleanLLMText text) = some v) : (pyStrip text).isEmpty = false := by
  by_contra hc
  have he : (pyStrip text).isEmpty = true := by simpa using hc
  have h0 : pyStrip text = [] := List.isEmpty_iff.mp he
  have hclean : cleanLLMText text = [] := by
    unfold cleanLLMText
    rw [h0]
    exact rfl
  rw [hclean] at h
  exact Option.noConfusion h

/-- C2 counterexample: the non-empty input `[1,2]` parses as a JSON
array, so the required-field loop raises a Python `TypeError` — an error
other than the empty-response error, on an input that is neither empty
nor a parse failure. -/
theorem safe_parse_nondict_cex :
    safe_parse_llm_json ("[1,2]".toList) = Except.error SanitizeError.typeError ∧
    SanitizeError.typeError ≠ SanitizeError.emptyResponse :=
  ⟨rfl, by decide⟩

/-- C2 (amended): the sanitizer fails with the empty-response error
exactly when the input is empty or whitespace-only; for non-empty input
whose cleaned text fails to parse as JSON it returns the fixed fallback
portfolio instead of raising; and when the cleaned text parses as a JSON
mapping it returns a mapping.  (When the cleaned text parses as a JSON
value that is not a mapping, it can instead raise a `TypeError`, see the
counterexample.) -/
theorem safe_parse_contract (text : List Char) :
    (safe_parse_llm_json text = Except.error SanitizeError.emptyResponse ↔
      (pyStrip text).isEmpty = true) ∧
    ((pyStrip text).isEmpty = false → json_loads (cleanLLMText text) = none →
      safe_parse_llm_json text = Except.ok get_fallback_portfolio) ∧
    (∀ kvs, json_loads (cleanLLMText text) = some (Json.obj kvs) →
      ∃ kvs2, safe_parse_llm_json text = Except.ok (Json.obj kvs2)) := by
  refine ⟨⟨?_, ?_⟩, ?_, ?_⟩
  · intro h
    by_contra hc
    have hne : (pyStrip text).isEmpty = false := by simpa using hc
    unfold safe_parse_llm_json at h
    rw [if_neg (by simp [hne])] at h
    cases hj : json_loads (cleanLLMText text) with
    | none =>
      rw [hj] at h
      exact Except.noConfusion h
    | some v =>
      rw [hj] at h
      exact fillRequiredGo_ne_empty requiredFields v h
  · intro h
    unfold safe_parse_llm_json
    rw [if_pos (by simp [h])]
  · intro hne hn
    unfold safe_parse_llm_json
    rw [if_neg (by simp [hne]), hn]
  · intro kvs hk
    have hne := json_loads_some_strip_ne text (Json.obj kvs) hk
    unfold safe_parse_llm_json
    rw [if_neg (by simp [hne]), hk]
    exact ⟨requiredFields.foldl fillStep kvs, fillRequiredGo_obj_eq requiredFields kvs⟩

theorem objHasKey_append_single (kvs : List (List Char × Json)) (k k2 : List Char) (v : Json) :
    objHasKey (kvs ++ [(k, v)]) k2 = (objHasKey kvs k2 || (k == k2)) := by
  unfold objHasKey
  rw [List.find?_append]
  cases hf : List.find? (fun kv => kv.1 == k2) kvs with
  | some x => simp [hf]
  | none =>
    by_cases hk : (k == k2) = true
    · simp [List.find?_cons, hk]
    · have hk2 : (k == k2) = false := by simpa using hk
      simp [List.find?_cons, hk2]

theorem objLookup_append_single (kvs : List (List Char × Json)) (k k2 : List Char) (v : Json) :
    objLookup (kvs ++ [(k, v)]) k2 =
      if objHasKey kvs k2 then objLookup kvs k2
      else if k == k2 then some v else none := by
  unfold objLookup objHasKey
  rw [List.find?_append]
  cases hf : List.find? (fun kv => kv.1 == k2) kvs with
  | some x => simp [hf]
  | none =>
    by_cases hk : (k == k2) = true
    · simp [List.find?_cons, hk]
    · have hk2 : (k == k2) = false := by simpa using hk
      simp [List.find?_cons, hk2]

theorem fillFold_preserves :
    ∀ (ks : List (List Char)) (kvs : List (List Char × Json)) (k : List Char),
      objHasKey kvs k = true →
      objHasKey (ks.foldl fillStep kvs) k = true ∧
      objLookup (ks.foldl fillStep kvs) k = objLookup kvs k := by
  intro ks
  induction ks with
  | nil => intro kvs k h; exact ⟨h, rfl⟩
  | cons f fs ih =>
    intro kvs k h
    rw [List.foldl_cons]
    by_cases hf : objHasKey kvs f
    · rw [show fillStep kvs f = kvs from by simp [fillStep, hf]]
      exact ih kvs k h
    · have hstep : fillStep kvs f = kvs ++ [(f, Json.str (get_default_code f))] := by
        simp [fillStep, hf]
      rw [hstep]
      have hh : objHasKey (kvs ++ [(f, Json.str (get_default_code f))]) k = true := by
        rw [objHasKey_append_single, h, Bool.true_or]
      have hl : objLookup (kvs ++ [(f, Json.str (get_default_code f))]) k = objLookup kvs k := by
        rw [objLookup_append_single, if_pos h]
      have := ih (kvs ++ [(f, Json.str (get_default_code f))]) k hh
      exact ⟨this.1, this.2.trans hl⟩

theorem fillFold_fills :
    ∀ (ks : List (List Char)) (kvs : List (List Char × Json)) (k : List Char),
      k ∈ ks → objHasKey kvs k = false →
      objLookup (ks.foldl fillStep kvs) k = some (Json.str (get_default_code k)) := by
  intro ks
  induction ks with
  | nil =>
    intro kvs k hk _
    simp at hk
  | cons f fs ih =>
    intro kvs k hk habs
    rw [List.foldl_cons]
    by_cases hkf : k = f
    · subst hkf
      have hstep : fillStep kvs k = kvs ++ [(k, Json.str (get_default_code k))] := by
        simp [fillStep, habs]
      rw [hstep]
      have hh : objHasKey (kvs ++ [(k, Json.str (get_default_code k))]) k = true := by
        rw [objHasKey_append_single, habs]
        simp
      have hl : objLookup (kvs ++ [(k, Json.str (get_default_code k))]) k =
          some (Json.str (get_default_code k)) := by
        rw [objLookup_append_single, if_neg (by simp [habs])]
        simp
      have hp := fillFold_preserves fs (kvs ++ [(k, Json.str (get_default_code k))]) k hh
      exact hp.2.trans hl
    · have hkfs : k ∈ fs := by
        rcases List.mem_cons.mp hk with h | h
        · exact absurd h hkf
        · exact h
      by_cases hf : objHasKey kvs f
      · rw [show fillStep kvs f = kvs from by simp [fillStep, hf]]
        exact ih kvs k hkfs habs
      · have hstep : fillStep kvs f = kvs ++ [(f, Json.str (get_default_code f))] := by
          simp [fillStep, hf]
        rw [hstep]
        have habs2 : objHasKey (kvs ++ [(f, Json.str (get_default_code f))]) k = false := by
          rw [objHasKey_append_single, habs]
          simp [beq_eq_false_iff_ne.mpr (Ne.symm hkf)]
        exact ih (kvs ++ [(f, Json.str (get_default_code f))]) k hkfs habs2

/-- C7: for every input whose cleaned text parses as a JSON mapping, the
sanitizer returns that mapping with the required-field loop applied:
each of the three keys that was present keeps its original value, and
each absent key is bound to its built-in per-key default (not the
whole-object fallback). -/
theorem safe_parse_partial_recovery (text : List Char) (kvs : List (List Char × Json))
    (h : json_loads (cleanLLMText text) = some (Json.obj kvs)) :
    safe_parse_llm_json text = Except.ok (Json.obj (fillKeys kvs)) ∧
    ∀ k ∈ requiredFields,
      (objHasKey kvs k = true → objLookup (fillKeys kvs) k = objLookup kvs k) ∧
      (objHasKey kvs k = false →
        objLookup (fillKeys kvs) k = some (Json.str (get_default_code k))) := by
  have hne := json_loads_some_strip_ne text (Json.obj kvs) h
  constructor
  · unfold safe_parse_llm_json
    rw [if_neg (by simp [hne]), h]
    exact fillRequiredGo_obj_eq requiredFields kvs
  · intro k hk
    constructor
    · intro hhas
      exact (fillFold_preserves requiredFields kvs k hhas).2
    · intro habs
      exact fillFold_fills requiredFields kvs k hk habs

/-- C7 witness: the concrete input `{"html_code": "a"}` parses to a
mapping holding only `html_code`, and the sanitizer keeps that value and
fills in the default `css_code` and `js_code`. -/
theorem safe_parse_partial_recovery_witness :
    json_loads (cleanLLMText ("\x7b\x22html_code\x22: \x22a\x22\x7d".toList)) =
      some (Json.obj [(htmlKey, Json.str ("a".toList))]) ∧
    (safe_parse_llm_json ("\x7b\x22html_code\x22: \x22a\x22\x7d".toList) =
        Except.ok (Json.obj (fillKeys [(htmlKey, Json.str ("a".toList))])) ∧
      ∀ k ∈ requiredFields,
        (objHasKey [(htmlKey, Json.str ("a".toList))] k = true →
          objLookup (fillKeys [(htmlKey, Json.str ("a".toList))]) k =
            objLookup [(htmlKey, Json.str ("a".toList))] k) ∧
        (objHasKey [(htmlKey, Json.str ("a".toList))] k = false →
          objLookup (fillKeys [(htmlKey, Json.str ("a".toList))]) k =
            some (Json.str (get_default_code k)))) :=
  ⟨rfl, safe_parse_partial_recovery ("\x7b\x22html_code\x22: \x22a\x22\x7d".toList)
    [(htmlKey, Json.str ("a".toList))] rfl⟩

/-! ## Theorems: sanitizer idempotence on serialized output (C10) -/

theorem skipJWS_cons_nonws (c : Char) (l : List Char) (h : isJWS c = false) :
    skipJWS (c :: l) = c :: l := by
  simp [skipJWS, List.dropWhile_cons, h]

theorem skipJWS_cons_ws (c : Char) (l : List Char) (h : isJWS c = true) :
    skipJWS (c :: l) = skipJWS l := by
  simp [skipJWS, List.dropWhile_cons, h]

theorem escJsonString_nil : escJsonString [] = [] := rfl

theorem escJsonString_cons (c : Char) (cs : List Char) :
    escJsonString (c :: cs) = escJsonChar c ++ escJsonString cs := by
  simp [escJsonString]

theorem parseStringBody_cons (c : Char) (cs : List Char) :
    parseStringBody (c :: cs) =
      if c = '\x22' then some ([], cs)
      else if c = '\x5c' then
        (match cs with
          | [] => none
          | e :: cs2 =>
            match unescapeChar e with
            | some d => (parseStringBody cs2).map (fun r => (d :: r.1, r.2))
            | none => none)
      else (parseStringBody cs).map (fun r => (c :: r.1, r.2)) := by
  cases cs with
  | nil => simp [parseStringBody]
  | cons e cs2 => simp [parseStringBody]

theorem parseStringBody_esc :
    ∀ (s rest : List Char), parseStringBody (escJsonString s ++ '\x22' :: rest) = some (s, rest) := by
  intro s
  induction s with
  | nil =>
    intro rest
    rw [escJsonString_nil, List.nil_append, parseStringBody_cons, if_pos rfl]
  | cons c cs ih =>
    intro rest
    rw [escJsonString_cons]
    by_cases hc : (c = '\x22' || c = '\x5c') = true
    · have hesc : escJsonChar c = ['\x5c', c] := by simp [escJsonChar, hc]
      have hune : unescapeChar c = some c := by
        rcases Bool.or_eq_true_iff.mp hc with h | h
        · rw [decide_eq_true_eq.mp h]
          rfl
        · rw [decide_eq_true_eq.mp h]
          rfl
      rw [hesc]
      show parseStringBody ('\x5c' :: (c :: (escJsonString cs ++ '\x22' :: rest))) = _
      rw [parseStringBody_cons]
      rw [if_neg (by decide), if_pos rfl]
      simp [hune, ih]
    · have hesc : escJsonChar c = [c] := by simp [escJsonChar, hc]
      have hq : ¬ (c = '\x22') := by
        intro h
        exact hc (by simp [h])
      have hb : ¬ (c = '\x5c') := by
        intro h
        exact hc (by simp [h])
      rw [hesc]
      show parseStringBody (c :: (escJsonString cs ++ '\x22' :: rest)) = _
      rw [parseStringBody_cons, if_neg hq, if_neg hb, ih]
      rfl

theorem quoteJson_append (a X : List Char) :
    quoteJson a ++ X = '\x22' :: (escJsonString a ++ '\x22' :: X) := by
  simp [quoteJson]

theorem parseVal_str (f : Nat) (s rest : List Char) :
    parseVal (f + 1) ('\x22' :: (escJsonString s ++ '\x22' :: rest)) =
      some (Json.str s, rest) := by
  have h1 : skipJWS ('\x22' :: (escJsonString s ++ '\x22' :: rest)) =
      '\x22' :: (escJsonString s ++ '\x22' :: rest) := skipJWS_cons_nonws _ _ (by decide)
  simp [parseVal, h1, parseStringBody_esc]

theorem parseVal_cons_space (f : Nat) (X : List Char) :
    parseVal (f + 1) (' ' :: X) = parseVal (f + 1) X := by
  simp only [parseVal]
  rw [skipJWS_cons_ws _ _ (by decide)]

theorem parseMembers_cons_space (f : Nat) (X : List Char) :
    parseMembers (f + 1) (' ' :: X) = parseMembers (f + 1) X := by
  simp only [parseMembers]
  rw [skipJWS_cons_ws _ _ (by decide)]

theorem parseMembers_single (f : Nat) (kv : List Char × List Char) (rest : List Char) :
    parseMembers (f + 2) (dumpsEntry kv ++ '\x7d' :: rest) =
      some ([(kv.1, Json.str kv.2)], rest) := by
  have hshape : dumpsEntry kv ++ '\x7d' :: rest =
      '\x22' :: (escJsonString kv.1 ++ '\x22' ::
        (':' :: (' ' :: ('\x22' :: (escJsonString kv.2 ++ '\x22' :: ('\x7d' :: rest)))))) := by
    simp [dumpsEntry, quoteJson]
  rw [hshape]
  have hv : parseVal (f + 1)
        (' ' :: ('\x22' :: (escJsonString kv.2 ++ '\x22' :: ('\x7d' :: rest))))
      = some (Json.str kv.2, '\x7d' :: rest) := by
    rw [parseVal_cons_space, parseVal_str]
  simp only [parseMembers]
  rw [skipJWS_cons_nonws _ _ (by decide)]
  simp only [parseStringBody_esc]
  rw [skipJWS_cons_nonws _ _ (by decide)]
  simp only [hv]
  rw [skipJWS_cons_nonws _ _ (by decide)]
  simp

theorem parseMembers_cons_step (f : Nat) (kv : List Char × List Char) (MID rest : List Char) :
    parseMembers (f + 2) (dumpsEntry kv ++ ',' :: ' ' :: (MID ++ '\x7d' :: rest)) =
      (parseMembers (f + 1) (MID ++ '\x7d' :: rest)).map
        (fun r => ((kv.1, Json.str kv.2) :: r.1, r.2)) := by
  have hshape : dumpsEntry kv ++ ',' :: ' ' :: (MID ++ '\x7d' :: rest) =
      '\x22' :: (escJsonString kv.1 ++ '\x22' ::
        (':' :: (' ' :: ('\x22' :: (escJsonString kv.2 ++ '\x22' ::
          (',' :: ' ' :: (MID ++ '\x7d' :: rest))))))) := by
    simp [dumpsEntry, quoteJson]
  rw [hshape]
  have hv : parseVal (f + 1)
        (' ' :: ('\x22' :: (escJsonString kv.2 ++ '\x22' ::
          (',' :: ' ' :: (MID ++ '\x7d' :: rest)))))
      = some (Json.str kv.2, ',' :: ' ' :: (MID ++ '\x7d' :: rest)) := by
    rw [parseVal_cons_space, parseVal_str]
  have hm : parseMembers (f + 1) (' ' :: (MID ++ '\x7d' :: rest)) =
      parseMembers (f + 1) (MID ++ '\x7d' :: rest) := parseMembers_cons_space f _
  simp only [parseMembers]
  rw [skipJWS_cons_nonws _ _ (by decide)]
  simp only [parseStringBody_esc]
  rw [skipJWS_cons_nonws _ _ (by decide)]
  simp only [hv]
  rw [skipJWS_cons_nonws _ _ (by decide)]
  simp only [parseMembers] at hm
  simp [hm]

theorem parseMembers_entries :
    ∀ (kvs : List (List Char × List Char)), kvs ≠ [] →
      ∀ (f : Nat) (rest : List Char), kvs.length + 1 ≤ f →
      parseMembers f (joinWith [',', ' '] (kvs.map dumpsEntry) ++ '\x7d' :: rest) =
        some (kvs.map (fun kv => (kv.1, Json.str kv.2)), rest) := by
  intro kvs
  induction kvs with
  | nil => intro h; exact absurd rfl h
  | cons kv kvs ih =>
    intro _ f rest hf
    cases kvs with
    | nil =>
      obtain ⟨f2, rfl⟩ : ∃ f2, f = f2 + 2 := ⟨f - 2, by simp at hf; omega⟩
      have hj : joinWith [',', ' '] ([kv].map dumpsEntry) ++ '\x7d' :: rest =
          dumpsEntry kv ++ '\x7d' :: rest := by
        simp [joinWith]
      rw [hj, parseMembers_single]
      rfl
    | cons kv2 kvs2 =>
      obtain ⟨f2, rfl⟩ : ∃ f2, f = f2 + 2 := ⟨f - 2, by simp at hf; omega⟩
      have hj : joinWith [',', ' '] ((kv :: kv2 :: kvs2).map dumpsEntry) ++ '\x7d' :: rest =
          dumpsEntry kv ++ ',' :: ' ' ::
            (joinWith [',', ' '] ((kv2 :: kvs2).map dumpsEntry) ++ '\x7d' :: rest) := by
        simp [joinWith]
      rw [hj, parseMembers_cons_step]
      rw [ih (by simp) (f2 + 1) rest (by simp at hf; simp; omega)]
      rfl

theorem dumpsEntry_len (kv : List Char × List Char) : 1 ≤ (dumpsEntry kv).length := by
  simp [dumpsEntry, quoteJson]

theorem joinWith_dumpsEntry_len :
    ∀ (kvs : List (List Char × List Char)),
      kvs.length ≤ (joinWith [',', ' '] (kvs.map dumpsEntry)).length := by
  intro kvs
  induction kvs with
  | nil => simp [joinWith]
  | cons kv kvs ih =>
    cases kvs with
    | nil =>
      simpa [joinWith] using dumpsEntry_len kv
    | cons kv2 kvs2 =>
      have hj : joinWith [',', ' '] ((kv :: kv2 :: kvs2).map dumpsEntry) =
          dumpsEntry kv ++ ',' :: ' ' :: joinWith [',', ' '] ((kv2 :: kvs2).map dumpsEntry) := by
        simp [joinWith]
      rw [List.length_cons, hj]
      simp only [List.length_append, List.length_cons]
      simp only [List.length_cons] at ih
      omega

theorem joinWith_dumpsEntry_shape (kv : List Char × List Char)
    (rest : List (List Char × List Char)) :
    ∃ t, joinWith [',', ' '] ((kv :: rest).map dumpsEntry) = '\x22' :: t := by
  cases rest with
  | nil =>
    refine ⟨escJsonString kv.1 ++ '\x22' :: (':' :: ' ' :: quoteJson kv.2), ?_⟩
    simp [joinWith, dumpsEntry, quoteJson]
  | cons kv2 r =>
    refine ⟨escJsonString kv.1 ++ '\x22' :: (':' :: ' ' :: (quoteJson kv.2 ++
      ',' :: ' ' :: joinWith [',', ' '] ((kv2 :: r).map dumpsEntry))), ?_⟩
    simp [joinWith, dumpsEntry, quoteJson]

theorem json_loads_dumps (kvs : List (List Char × List Char)) (hne : kvs ≠ []) :
    json_loads (json_dumps_strobj kvs) =
      some (Json.obj (dictOfPairs (kvs.map (fun kv => (kv.1, Json.str kv.2))))) := by
  cases kvs with
  | nil => exact absurd rfl hne
  | cons kv rest =>
    obtain ⟨t, ht⟩ := joinWith_dumpsEntry_shape kv rest
    have hT : json_dumps_strobj (kv :: rest) =
        '\x7b' :: (joinWith [',', ' '] ((kv :: rest).map dumpsEntry) ++ ['\x7d']) := rfl
    have hlen : (kv :: rest).length + 1 ≤
        ('\x7b' :: (joinWith [',', ' '] ((kv :: rest).map dumpsEntry) ++ ['\x7d'])).length := by
      have hj := joinWith_dumpsEntry_len (kv :: rest)
      simp only [List.length_cons, List.length_append, List.length_singleton] at *
      omega
    have hparse := parseMembers_entries (kv :: rest) (by simp)
      (('\x7b' :: (joinWith [',', ' '] ((kv :: rest).map dumpsEntry) ++ ['\x7d'])).length)
      [] hlen
    have hskip2 : skipJWS (joinWith [',', ' '] ((kv :: rest).map dumpsEntry) ++ ['\x7d']) =
        '\x22' :: (t ++ ['\x7d']) := by
      rw [ht, List.cons_append]
      exact skipJWS_cons_nonws _ _ (by decide)
    have heq : ('\x22' : Char) :: (t ++ ['\x7d']) =
        joinWith [',', ' '] ((kv :: rest).map dumpsEntry) ++ '\x7d' :: [] := by
      rw [ht]
      simp
    rw [hT]
    unfold json_loads
    simp only [parseVal]
    rw [skipJWS_cons_nonws _ _ (by decide)]
    simp only [hskip2]
    rw [heq, hparse]
    simp [skipJWS]

theorem objHasKey_iff_mem (kvs : List (List Char × Json)) (k : List Char) :
    objHasKey kvs k = true ↔ k ∈ kvs.map Prod.fst := by
  unfold objHasKey
  rw [List.find?_isSome]
  constructor
  · rintro ⟨x, hx, hpx⟩
    exact List.mem_map.mpr ⟨x, hx, beq_iff_eq.mp hpx⟩
  · intro hk
    obtain ⟨x, hx, hfst⟩ := List.mem_map.mp hk
    exact ⟨x, hx, beq_iff_eq.mpr hfst⟩

theorem objHasKey_eq_false_iff (kvs : List (List Char × Json)) (k : List Char) :
    objHasKey kvs k = false ↔ k ∉ kvs.map Prod.fst := by
  rw [← objHasKey_iff_mem]
  constructor
  · intro h hh
    rw [h] at hh
    exact Bool.noConfusion hh
  · intro h
    cases hx : objHasKey kvs k with
    | false => rfl
    | true => exact absurd hx h

theorem dictOfPairs_go :
    ∀ (ps acc : List (List Char × Json)),
      ((acc ++ ps).map Prod.fst).Nodup →
      ps.foldl (fun a kv => objSet a kv.1 kv.2) acc = acc ++ ps := by
  intro ps
  induction ps with
  | nil =>
    intro acc _
    simp
  | cons kv ps ih =>
    intro acc hnd
    rw [List.foldl_cons]
    have hk : kv.1 ∉ acc.map Prod.fst := by
      rw [List.map_append] at hnd
      have hd := (List.nodup_append.mp hnd).2.2
      intro hmem
      exact hd hmem (List.mem_map.mpr ⟨kv, List.mem_cons_self kv ps, rfl⟩)
    have hfalse : objHasKey acc kv.1 = false := (objHasKey_eq_false_iff acc kv.1).mpr hk
    have hset : objSet acc kv.1 kv.2 = acc ++ [(kv.1, kv.2)] := by
      unfold objSet
      rw [if_neg (by simp [hfalse])]
    rw [hset]
    have hps : (acc ++ [(kv.1, kv.2)]) ++ ps = acc ++ kv :: ps := by simp
    rw [ih (acc ++ [(kv.1, kv.2)]) (by rw [hps]; exact hnd)]
    exact hps

theorem dictOfPairs_nodup (ps : List (List Char × Json)) (h : (ps.map Prod.fst).Nodup) :
    dictOfPairs ps = ps := by
  have hgo := dictOfPairs_go ps [] (by simpa using h)
  simpa [dictOfPairs] using hgo

theorem dropWhile_cons_neg (p : Char → Bool) (c : Char) (l : List Char) (h : p c = false) :
    (c :: l).dropWhile p = c :: l := by
  simp [List.dropWhile_cons, h]

theorem pyStrip_sandwich (c d : Char) (xs : List Char)
    (hc : isWS c = false) (hd : isWS d = false) :
    pyStrip (c :: (xs ++ [d])) = c :: (xs ++ [d]) := by
  unfold pyStrip
  rw [dropWhile_cons_neg _ _ _ hc]
  have hrev : (c :: (xs ++ [d])).reverse = d :: (xs.reverse ++ [c]) := by simp
  rw [hrev, dropWhile_cons_neg _ _ _ hd]
  simp

theorem stripCodeFence_lbrace (l : List Char) :
    stripCodeFence ('\x7b' :: l) = '\x7b' :: l := by
  unfold stripCodeFence
  rw [if_neg]
  intro h
  rw [show fenceToken = '\x60' :: ('\x60' :: ['\x60']) from rfl, List.isPrefixOf_cons₂] at h
  have hb := beq_iff_eq.mp (Bool.and_eq_true_iff.mp h).1
  exact absurd hb (by decide)

theorem findChar_cons_self (c : Char) (l : List Char) : findChar c (c :: l) = some 0 := by
  simp [findChar]

theorem sliceBraces_shape (xs : List Char) :
    sliceBraces ('\x7b' :: (xs ++ ['\x7d'])) = '\x7b' :: (xs ++ ['\x7d']) := by
  have h1 : findChar '\x7b' ('\x7b' :: (xs ++ ['\x7d'])) = some 0 := findChar_cons_self _ _
  have hrev : ('\x7b' :: (xs ++ ['\x7d'])).reverse = '\x7d' :: (xs.reverse ++ ['\x7b']) := by
    simp
  have h2 : rfindChar '\x7d' ('\x7b' :: (xs ++ ['\x7d'])) =
      some (('\x7b' :: (xs ++ ['\x7d'])).length - 1 - 0) := by
    unfold rfindChar
    rw [hrev, findChar_cons_self]
  unfold sliceBraces
  simp only [h1, h2]
  have hlen : ('\x7b' :: (xs ++ ['\x7d'])).length = xs.length + 2 := by simp
  rw [hlen]
  rw [if_pos (by omega)]
  rw [List.drop_zero]
  have harith : xs.length + 2 - 1 - 0 + 1 - 0 = ('\x7b' :: (xs ++ ['\x7d'])).length := by
    rw [hlen]
    omega
  rw [harith, List.take_length]

theorem fixQuotes_of_quote (l : List Char) (h : pyContainsChar '\x22' l = true) :
    fixQuotes l = l := by
  unfold fixQuotes
  rw [h]
  simp

theorem dumps_contains_quote (kv : List Char × List Char)
    (rest : List (List Char × List Char)) :
    pyContainsChar '\x22' (json_dumps_strobj (kv :: rest)) = true := by
  obtain ⟨t, ht⟩ := joinWith_dumpsEntry_shape kv rest
  unfold pyContainsChar json_dumps_strobj
  rw [List.any_eq_true]
  refine ⟨'\x22', ?_, by simp⟩
  rw [ht]
  simp

theorem fillFold_id :
    ∀ (ks : List (List Char)) (kvs : List (List Char × Json)),
      (∀ k ∈ ks, objHasKey kvs k = true) → ks.foldl fillStep kvs = kvs := by
  intro ks
  induction ks with
  | nil => intro kvs _; rfl
  | cons k ks ih =>
    intro kvs h
    rw [List.foldl_cons]
    rw [show fillStep kvs k = kvs from by simp [fillStep, h k (List.mem_cons_self k ks)]]
    exact ih kvs (fun k2 hk2 => h k2 (List.mem_cons_of_mem k hk2))

/-- C10: the sanitizer is idempotent on its own output: for every
mapping whose keys are exactly `html_code`, `css_code`, `js_code` (in
any order) with string values, running the sanitizer on its JSON
serialization returns that mapping unchanged. -/
theorem safe_parse_idempotent (kvs : List (List Char × List Char))
    (hkeys : (kvs.map Prod.fst).Perm requiredFields) :
    safe_parse_llm_json (json_dumps_strobj kvs) =
      Except.ok (Json.obj (kvs.map (fun kv => (kv.1, Json.str kv.2)))) := by
  cases kvs with
  | nil =>
    have hlen := hkeys.length_eq
    simp [requiredFields] at hlen
  | cons kv rest =>
    have hreqnd : requiredFields.Nodup := by decide
    have hnodup : ((kv :: rest).map Prod.fst).Nodup := hkeys.symm.nodup hreqnd
    have hmk : (((kv :: rest).map (fun kv => (kv.1, Json.str kv.2))).map Prod.fst) =
        (kv :: rest).map Prod.fst := by
      simp [List.map_map, Function.comp]
    have hloads := json_loads_dumps (kv :: rest) (by simp)
    rw [dictOfPairs_nodup _ (by rw [hmk]; exact hnodup)] at hloads
    have hTshape : json_dumps_strobj (kv :: rest) =
        '\x7b' :: (joinWith [',', ' '] ((kv :: rest).map dumpsEntry) ++ ['\x7d']) := rfl
    have hstrip : pyStrip (json_dumps_strobj (kv :: rest)) = json_dumps_strobj (kv :: rest) := by
      rw [hTshape]
      exact pyStrip_sandwich _ _ _ (by decide) (by decide)
    have hclean : cleanLLMText (json_dumps_strobj (kv :: rest)) =
        json_dumps_strobj (kv :: rest) := by
      unfold cleanLLMText
      rw [hstrip, hTshape, stripCodeFence_lbrace, sliceBraces_shape, ← hTshape,
        fixQuotes_of_quote _ (dumps_contains_quote kv rest)]
    have hne : (pyStrip (json_dumps_strobj (kv :: rest))).isEmpty = false := by
      rw [hstrip, hTshape]
      rfl
    unfold safe_parse_llm_json
    rw [if_neg (by simp [hne]), hclean, hloads]
    show fillRequired (Json.obj ((kv :: rest).map (fun kv => (kv.1, Json.str kv.2)))) = _
    unfold fillRequired
    rw [fillRequiredGo_obj_eq]
    rw [fillFold_id requiredFields _ ?_]
    intro k hk
    rw [objHasKey_iff_mem, hmk]
    exact hkeys.symm.subset hk

/-- C10 witness: idempotence at the concrete three-key mapping with
values `a`, `b`, `c`. -/
theorem safe_parse_idempotent_witness :
    (([("html_code".toList, "a".toList), ("css_code".toList, "b".toList),
        ("js_code".toList, "c".toList)].map Prod.fst).Perm requiredFields) ∧
    safe_parse_llm_json (json_dumps_strobj
        [("html_code".toList, "a".toList), ("css_code".toList, "b".toList),
         ("js_code".toList, "c".toList)]) =
      Except.ok (Json.obj ([("html_code".toList, "a".toList), ("css_code".toList, "b".toList),
        ("js_code".toList, "c".toList)].map (fun kv => (kv.1, Json.str kv.2)))) :=
  ⟨by decide, safe_parse_idempotent
    [("html_code".toList, "a".toList), ("css_code".toList, "b".toList),
     ("js_code".toList, "c".toList)] (by decide)⟩
